import Mathlib

/-! Verification of `birthday_presents.cpp` and `atmospheric_temperature.cpp`.

A shallow embedding of the two shared containers of the repository:

* `LinkedList` (birthday_presents.cpp): the sorted singly linked chain of
  `Present` nodes together with its two `int` counters;
* `ReadingQueue` (atmospheric_temperature.cpp): the FIFO queue of
  `TemperatureReading`s, and the statistics that `hourlyReportThread`
  computes on a drained vector.

Every operation of the source runs under `lock_guard<mutex>`, so one call is
one atomic step on the container state; the embedding is the sequential
semantics of one such step.

Modelling conventions.

* The chain of nodes owned by `head` is the list of their `tag`s in
  traversal order (`head == nullptr` is `[]`).
* `int` tags and counters are mathematical integers.  The tags are only ever
  compared.  The counters change by one per call, so they stay inside the
  range of `int` in every run of fewer than `2 ^ 31` calls
  (`run_counters_bounded`); beyond that the C++ behaviour is undefined.
* `double` temperatures are elements of a linearly ordered carrier (finite
  values, no NaN).  Sorting and the selections only compare them.  The scan
  also subtracts and takes `abs`: it takes these operations as a parameter
  (`DoubleArith`), and `binary64` is their IEEE 754 instance, with a `double`
  written as an integer multiple of `2 ^ (-1074)`.
* `system_clock::time_point` is the integer tick count since the epoch.
-/

namespace BirthdayPresents

/-- The state of `class LinkedList`: the tags of the chain starting at `head`
(in traversal order) and the two counters. -/
structure LinkedList where
  head : List Int
  presents_count : Int
  thank_you_cards_count : Int
  deriving DecidableEq, Repr

/-- The constructor `LinkedList()`: `head(nullptr)`, both counters `0`. -/
def LinkedList.empty : LinkedList :=
  { head := [], presents_count := 0, thank_you_cards_count := 0 }

/-- The `else` branch of `add_present` (lines 41-52), started with
`current` at the given chain: the loop
`while (current && current->tag < present->tag)` walks over the nodes with a
smaller tag, which stay in front; the new node is linked in front of
`current` (`new_present->next_present = current`), at the very front when the
loop did not move (`previous == nullptr`). -/
def add_present_scan (tag : Int) : List Int → List Int
  | [] => [tag]
  | c :: rest => if c < tag then c :: add_present_scan tag rest else tag :: c :: rest

/-- The chain after `add_present`, lines 37-53. -/
def add_present_chain (tag : Int) : List Int → List Int
  | [] => [tag]
  | h :: rest => if h > tag then tag :: h :: rest else add_present_scan tag (h :: rest)

/-- The method `LinkedList::add_present(Present* present)`, with
`present->tag = tag`. -/
def LinkedList.add_present (l : LinkedList) (tag : Int) : LinkedList :=
  { head := add_present_chain tag l.head
    presents_count := l.presents_count + 1
    thank_you_cards_count := l.thank_you_cards_count }

/-- The search loop of `write_thank_you_card` (lines 62-73) on a chain:
`while (current && current->tag != card->guest)` walks to the first node with
the tag `guest`; `none` when `current` runs off the end (the `return` of line
69), otherwise the chain with that node unlinked. -/
def unlink_first (guest : Int) : List Int → Option (List Int)
  | [] => none
  | c :: rest =>
    if c ≠ guest then (unlink_first guest rest).map (fun r => c :: r) else some rest

/-- The method `LinkedList::write_thank_you_card(ThankYouCard* card)`, with
`card->guest = guest`.  Its C++ return type is `void`: the result is only the
new state. -/
def LinkedList.write_thank_you_card (l : LinkedList) (guest : Int) : LinkedList :=
  match l.head with
  | [] => l
  | _ :: _ =>
    match unlink_first guest l.head with
    | none => l
    | some chain =>
      { head := chain
        presents_count := l.presents_count - 1
        thank_you_cards_count := l.thank_you_cards_count + 1 }

/-- A call `linked_list.write_thank_you_card(card)` as its caller sees it: the
value handed back and the new state.  The method is declared `void`, so the
value is the unit, whatever the chain holds. -/
def LinkedList.write_thank_you_card_call (l : LinkedList) (guest : Int) : Unit × LinkedList :=
  ((), l.write_thank_you_card guest)

/-- The accessor `getPresentsCount()`. -/
def LinkedList.getPresentsCount (l : LinkedList) : Int := l.presents_count

/-- The accessor `getThankYouCardsCount()`. -/
def LinkedList.getThankYouCardsCount (l : LinkedList) : Int := l.thank_you_cards_count

/-- The tags met when walking the chain from `head` along `next_present`. -/
def LinkedList.traverse (l : LinkedList) : List Int := l.head

/-- One call on the registry. -/
inductive Call where
  | add_present (tag : Int)
  | write_thank_you_card (guest : Int)
  deriving DecidableEq, Repr

/-- The effect of one call. -/
def LinkedList.step (l : LinkedList) : Call → LinkedList
  | .add_present tag => l.add_present tag
  | .write_thank_you_card guest => l.write_thank_you_card guest

/-- The registry after the calls of `calls`, executed one at a time from left
to right on the state `l`. -/
def LinkedList.runFrom (l : LinkedList) (calls : List Call) : LinkedList :=
  calls.foldl LinkedList.step l

/-- The registry after the calls of `calls` on the empty registry. -/
def run (calls : List Call) : LinkedList := LinkedList.empty.runFrom calls

/-- The number of `add_present` calls in a sequence of calls. -/
def addCount : List Call → Nat
  | [] => 0
  | .add_present _ :: cs => addCount cs + 1
  | .write_thank_you_card _ :: cs => addCount cs

/-- The ordered insertion in the words of the specification, section 4.3:
"find first item with key greater than the new key; splice before it", the new
key going to the end when no item is greater.  It is written from the
specification, not from the source, to be compared with `add_present`. -/
def spliceBeforeFirstGreater (key : Int) : List Int → List Int
  | [] => [key]
  | item :: rest =>
    if item > key then key :: item :: rest else item :: spliceBeforeFirstGreater key rest

/-- The tags pushed by the loop `for (int i = 1; i <= n; ++i)` of `main`
(lines 126-129, where `n` is `50000`): `1, 2, ..., n`. -/
def mainKeys (n : Nat) : List Int := (List.range n).map (fun (i : Nat) => (i : Int) + 1)

/-- The work list `presents_queue` built in `main`, as the `add_present` calls
its entries stand for. -/
def presents_queue (n : Nat) : List Call := (mainKeys n).map Call.add_present

/-- The work list `cards_queue` built in `main`, as the `write_thank_you_card`
calls its entries stand for. -/
def cards_queue (n : Nat) : List Call := (mainKeys n).map Call.write_thank_you_card

/-- In the order of execution `calls`, the removal of `key` ran after the
insertion of `key`: the first `add_present(key)` comes before the first
`write_thank_you_card(key)`. -/
def removalAfterInsert (calls : List Call) (key : Int) : Bool :=
  decide (calls.indexOf (Call.add_present key) < calls.indexOf (Call.write_thank_you_card key))

/-- In the order of execution `calls`, the removal of `key` ran before the
insertion of `key`. -/
def removalBeforeInsert (calls : List Call) (key : Int) : Bool :=
  decide (calls.indexOf (Call.write_thank_you_card key) < calls.indexOf (Call.add_present key))

end BirthdayPresents

namespace AtmosphericTemperature

/-- The `struct TemperatureReading`: a temperature and the tick count of its
`system_clock::time_point`. -/
structure TemperatureReading (α : Type) where
  temperature : α
  timestamp : Int
  deriving DecidableEq, Repr

/-- The state of `class ReadingQueue`: the `queue<TemperatureReading>`, front
first. -/
structure ReadingQueue (α : Type) where
  readings : List (TemperatureReading α)
  deriving DecidableEq, Repr

/-- A freshly constructed `ReadingQueue`. -/
def ReadingQueue.empty {α : Type} : ReadingQueue α := { readings := [] }

/-- The method `ReadingQueue::addReading`: `readings.push(reading)`. -/
def ReadingQueue.addReading {α : Type} (q : ReadingQueue α) (reading : TemperatureReading α) :
    ReadingQueue α :=
  { readings := q.readings ++ [reading] }

/-- The hour bucket of a time point,
`time_point_cast<chrono::hours>(t).time_since_epoch().count()`: the tick count
divided by the number of ticks in an hour, rounded toward zero as
`duration_cast` does.  The tick period of `system_clock` is implementation
defined, so the number of ticks per hour is a parameter. -/
def hourOf (ticksPerHour : Int) (timestamp : Int) : Int := Int.tdiv timestamp ticksPerHour

/-- The first loop of `getReadingsForHour` (lines 39-45): while `readings` is
not empty, the front is appended to `hourReadings` when its hour is `hour`,
and popped in either case.  Returns `(readings, hourReadings)` at loop exit. -/
def drainLoop {α : Type} (ticksPerHour hour : Int) :
    List (TemperatureReading α) → List (TemperatureReading α) →
      List (TemperatureReading α) × List (TemperatureReading α)
  | [], hourReadings => ([], hourReadings)
  | front :: rest, hourReadings =>
    drainLoop ticksPerHour hour rest
      (if hourOf ticksPerHour front.timestamp = hour then hourReadings ++ [front]
       else hourReadings)

/-- The second loop of `getReadingsForHour` (lines 49-52): while `tempQueue`
is not empty, its front is pushed on `readings` and popped.  Returns
`(tempQueue, readings)` at loop exit. -/
def restoreLoop {α : Type} :
    List (TemperatureReading α) → List (TemperatureReading α) →
      List (TemperatureReading α) × List (TemperatureReading α)
  | [], readings => ([], readings)
  | front :: rest, readings => restoreLoop rest (readings ++ [front])

/-- The method `ReadingQueue::getReadingsForHour(int hour)`: the queue after
the call and the returned vector. -/
def ReadingQueue.getReadingsForHour {α : Type} (ticksPerHour : Int) (q : ReadingQueue α)
    (hour : Int) : ReadingQueue α × List (TemperatureReading α) :=
  -- vector<TemperatureReading> hourReadings; while (!readings.empty()) ...
  let drained := drainLoop ticksPerHour hour q.readings []
  let readings := drained.1
  let hourReadings := drained.2
  -- queue<TemperatureReading> tempQueue; swap(readings, tempQueue);
  let tempQueue : List (TemperatureReading α) := []
  let swapped := (tempQueue, readings)
  -- while (!tempQueue.empty()) ...
  let restored := restoreLoop swapped.2 swapped.1
  ({ readings := restored.2 }, hourReadings)

/-- The `sort` call of `hourlyReportThread` (lines 89-91): ascending by
temperature.  `std::sort` leaves the relative order of readings with equal
temperature unspecified; the model keeps them in their original order. -/
def sortByTemperature {α : Type} [LinearOrder α] (hourReadings : List (TemperatureReading α)) :
    List (TemperatureReading α) :=
  hourReadings.insertionSort (fun a b => a.temperature ≤ b.temperature)

/-- Line 94, on the sorted vector `hourReadings`:
`top5Highest(begin, begin + min<size_t>(5, size))`. -/
def top5Highest {α : Type} (hourReadings : List (TemperatureReading α)) :
    List (TemperatureReading α) :=
  hourReadings.take (min 5 hourReadings.length)

/-- Line 95, on the sorted vector `hourReadings`:
`top5Lowest(end - min<size_t>(5, size), end)`. -/
def top5Lowest {α : Type} (hourReadings : List (TemperatureReading α)) :
    List (TemperatureReading α) :=
  hourReadings.drop (hourReadings.length - min 5 hourReadings.length)

/-- The value of `hourReadings.size() - 1` in `size_t` arithmetic (64 bits),
for a vector of `size` elements. -/
def sizeMinusOne (size : Nat) : Nat := (size + 2 ^ 64 - 1) % 2 ^ 64

/-- The variables of the scan of lines 98-107: `maxDifference`, `startTime`,
`endTime`. -/
structure Scan (α : Type) where
  maxDifference : α
  startTime : Int
  endTime : Int
  deriving DecidableEq, Repr

/-- The arithmetic on `double` that the scan uses: the literal `0.0`, the
subtraction of two `double`s (which rounds its result) and `abs`.  It is the
arithmetic of the platform, not code of the program, so the scan takes it as a
parameter; `binary64` below is the IEEE 754 instance.  The comparison `>` is
the order of the carrier. -/
structure DoubleArith (α : Type) where
  zero : α
  sub : α → α → α
  abs : α → α

/-- The body of the scan loop (lines 101-106) at index `i`, with
`difference = abs(hourReadings[i + 1].temperature - hourReadings[i].temperature)`
computed in the arithmetic `arith`.  Reading `hourReadings[i + 1]` or
`hourReadings[i]` outside the vector has no defined result: `none`. -/
def scanBody {α : Type} [LinearOrder α] (arith : DoubleArith α)
    (hourReadings : List (TemperatureReading α)) (i : Nat) (s : Scan α) : Option (Scan α) :=
  match hourReadings[i + 1]?, hourReadings[i]? with
  | some next, some cur =>
    let difference := arith.abs (arith.sub next.temperature cur.temperature)
    if difference > s.maxDifference then
      some { maxDifference := difference, startTime := cur.timestamp, endTime := next.timestamp }
    else some s
  | _, _ => none

/-- The scan loop `for (size_t i = 0; i < bound; ++i)` from index `i` on, with
`remaining = bound - i` iterations still to run. -/
def scanLoop {α : Type} [LinearOrder α] (arith : DoubleArith α)
    (hourReadings : List (TemperatureReading α)) :
    (remaining : Nat) → (i : Nat) → Scan α → Option (Scan α)
  | 0, _, s => some s
  | remaining + 1, i, s =>
    match scanBody arith hourReadings i s with
    | none => none
    | some s1 => scanLoop arith hourReadings remaining (i + 1) s1

/-- Lines 98-107 of `hourlyReportThread` on the sorted vector: `maxDifference`
starts at `0.0`, `startTime` and `endTime` are default constructed (the
epoch), and the loop runs up to `hourReadings.size() - 1`. -/
def maxDifferenceScan {α : Type} [LinearOrder α] (arith : DoubleArith α)
    (hourReadings : List (TemperatureReading α)) : Option (Scan α) :=
  scanLoop arith hourReadings (sizeMinusOne hourReadings.length) 0
    { maxDifference := arith.zero, startTime := 0, endTime := 0 }

/-- The scan variables as the loop body sets them at the adjacent pair
`(i, i + 1)`: the computed absolute difference of the two temperatures and the
two timestamps (the initial values when the pair is not inside the vector). -/
def recordedAt {α : Type} [LinearOrder α] (arith : DoubleArith α)
    (hourReadings : List (TemperatureReading α)) (i : Nat) : Scan α :=
  match hourReadings[i + 1]?, hourReadings[i]? with
  | some next, some cur =>
    { maxDifference := arith.abs (arith.sub next.temperature cur.temperature)
      startTime := cur.timestamp, endTime := next.timestamp }
  | _, _ => { maxDifference := arith.zero, startTime := 0, endTime := 0 }

/-- The power `2 ^ k`, written as a shift. -/
def pow2 (k : Nat) : Nat := 1 <<< k

/-- The position of the leading bit of `n`, that is `⌊log₂ n⌋`, for
`1 ≤ n < 2 ^ 4096`, found by bisection. -/
def floorLog2 (n : Nat) : Nat :=
  [2048, 1024, 512, 256, 128, 64, 32, 16, 8, 4, 2, 1].foldl
    (fun acc step => if pow2 (acc + step) ≤ n then acc + step else acc) 0

/-- Rounding of a magnitude to 53 significant bits, to nearest and ties to
even: the `s` bits below the 53 leading ones are dropped, and the kept part
`q` goes up by one when the dropped part `r` is more than half a unit of `q`,
or exactly half and `q` is odd. -/
def roundSignificand (a : Nat) : Nat :=
  let s := floorLog2 a - 52
  let q := a / pow2 s
  let r := a % pow2 s
  let m :=
    if 2 * r < pow2 s then q
    else if pow2 s < 2 * r then q + 1
    else if q % 2 = 0 then q else q + 1
  m * pow2 s

/-- The finite values of an IEEE 754 binary64 `double` are the integer
multiples `n * 2 ^ (-1074)` of the smallest subnormal with at most 53
significant bits and magnitude below `2 ^ 1024`; such a value is written as
the integer `n`.  In this unit `2 ^ 2098` is the first magnitude past the
largest finite one and stands for infinity. -/
def binary64Infinity : Nat := pow2 2098

/-- The `double` nearest to the real number `n * 2 ^ (-1074)` (ties to even),
in the same unit; infinity when its magnitude reaches `2 ^ 1024`. -/
def roundDouble (n : Int) : Int :=
  let a := min (roundSignificand n.natAbs) binary64Infinity
  if 0 ≤ n then (a : Int) else -(a : Int)

/-- The arithmetic of IEEE 754 binary64 on finite `double`s, written as
integers in units of `2 ^ (-1074)`: the difference is the exact difference
rounded to nearest, `abs` is exact, and the order is the order of the
integers.  Infinities as operands and NaN are not covered. -/
def binary64 : DoubleArith Int :=
  { zero := 0
    sub := fun x y => roundDouble (x - y)
    abs := fun x => |x| }

/-- The `double` with the integer value `k`, in units of `2 ^ (-1074)`. -/
def double (k : Int) : Int := k * (pow2 1074 : Int)

/-- The readings with the given temperatures, stamped `0, 1, 2, ...` in
order. -/
def stamped {α : Type} (temperatures : List α) : List (TemperatureReading α) :=
  temperatures.enum.map (fun p => { temperature := p.2, timestamp := p.1 })

/-- The sorted values `1, 1, 3, 5, 9, 9` of the specification's example, as
`double`s in readings stamped `0 .. 5`. -/
def exampleSorted : List (TemperatureReading Int) :=
  stamped [double 1, double 1, double 3, double 5, double 9, double 9]

/-- The sorted `double`s `-1`, `-2 ^ (-60)`, `1`, in readings stamped
`0, 1, 2`. -/
def exampleRounding : List (TemperatureReading Int) :=
  stamped [-double 1, -(pow2 1014 : Int), double 1]

/-- The unsorted values `5, 1, 9, 1, 9, 3` of the specification's example, as
readings stamped `0 .. 5`. -/
def exampleDrained : List (TemperatureReading Int) := stamped [5, 1, 9, 1, 9, 3]

end AtmosphericTemperature

namespace BirthdayPresents

/-! ## The registry: chain operations -/

theorem add_present_scan_eq_orderedInsert (tag : Int) (chain : List Int) :
    add_present_scan tag chain = chain.orderedInsert (fun a b => a ≤ b) tag := by
  induction chain with
  | nil => rfl
  | cons c rest ih =>
    by_cases hc : c < tag
    · have hn : ¬ tag ≤ c := not_le.mpr hc
      simp [add_present_scan, List.orderedInsert, hc, hn, ih]
    · have hn : tag ≤ c := not_lt.mp hc
      simp [add_present_scan, List.orderedInsert, hc, hn]

theorem add_present_chain_eq_orderedInsert (tag : Int) (chain : List Int) :
    add_present_chain tag chain = chain.orderedInsert (fun a b => a ≤ b) tag := by
  cases chain with
  | nil => rfl
  | cons h rest =>
    by_cases hh : h > tag
    · have hn : tag ≤ h := le_of_lt hh
      simp [add_present_chain, List.orderedInsert, hh, hn]
    · simp only [add_present_chain, hh, if_false]
      exact add_present_scan_eq_orderedInsert tag (h :: rest)

theorem add_present_chain_sorted (tag : Int) (chain : List Int)
    (hs : chain.Sorted (fun a b => a ≤ b)) :
    (add_present_chain tag chain).Sorted (fun a b => a ≤ b) := by
  rw [add_present_chain_eq_orderedInsert]
  exact hs.orderedInsert tag chain

theorem add_present_chain_perm (tag : Int) (chain : List Int) :
    (add_present_chain tag chain).Perm (tag :: chain) := by
  rw [add_present_chain_eq_orderedInsert]
  exact List.perm_orderedInsert _ tag chain

theorem add_present_chain_length (tag : Int) (chain : List Int) :
    (add_present_chain tag chain).length = chain.length + 1 := by
  simpa using (add_present_chain_perm tag chain).length_eq

theorem unlink_first_of_not_mem (guest : Int) (chain : List Int) (h : guest ∉ chain) :
    unlink_first guest chain = none := by
  induction chain with
  | nil => rfl
  | cons c rest ih =>
    have hc : c ≠ guest := fun e => h (by simp [e])
    have hr : guest ∉ rest := fun m => h (List.mem_cons_of_mem _ m)
    simp [unlink_first, hc, ih hr]

theorem unlink_first_of_mem (guest : Int) (chain : List Int) (h : guest ∈ chain) :
    ∃ before after, chain = before ++ guest :: after ∧ guest ∉ before ∧
      unlink_first guest chain = some (before ++ after) := by
  induction chain with
  | nil => cases h
  | cons c rest ih =>
    by_cases hc : c = guest
    · refine ⟨[], rest, by simp [hc], by simp, ?_⟩
      simp [unlink_first, hc]
    · have hr : guest ∈ rest := by
        rcases List.mem_cons.mp h with e | m
        · exact absurd e.symm hc
        · exact m
      obtain ⟨before, after, he, hnb, hu⟩ := ih hr
      refine ⟨c :: before, after, by simp [he], ?_, ?_⟩
      · intro m
        rcases List.mem_cons.mp m with e | m
        · exact hc e.symm
        · exact hnb m
      · simp [unlink_first, hc, hu]

theorem unlink_first_sublist (guest : Int) (chain out : List Int)
    (h : unlink_first guest chain = some out) : out.Sublist chain := by
  by_cases hm : guest ∈ chain
  · obtain ⟨before, after, he, _, hu⟩ := unlink_first_of_mem guest chain hm
    rw [hu] at h
    cases h
    rw [he]
    exact (List.Sublist.refl before).append (List.sublist_cons_self guest after)
  · rw [unlink_first_of_not_mem guest chain hm] at h
    cases h

/-- A `write_thank_you_card` for a tag that is not in the chain returns the
state it was given. -/
theorem write_thank_you_card_of_not_mem (l : LinkedList) (guest : Int) (h : guest ∉ l.head) :
    l.write_thank_you_card guest = l := by
  unfold LinkedList.write_thank_you_card
  split
  · rfl
  · rw [unlink_first_of_not_mem guest l.head h]

/-- A `write_thank_you_card` for a tag of the chain unlinks its first
occurrence and moves one unit from `presents_count` to
`thank_you_cards_count`. -/
theorem write_thank_you_card_of_mem (l : LinkedList) (guest : Int) (h : guest ∈ l.head) :
    ∃ before after, l.head = before ++ guest :: after ∧ guest ∉ before ∧
      l.write_thank_you_card guest =
        { head := before ++ after
          presents_count := l.presents_count - 1
          thank_you_cards_count := l.thank_you_cards_count + 1 } := by
  obtain ⟨before, after, he, hnb, hu⟩ := unlink_first_of_mem guest l.head h
  refine ⟨before, after, he, hnb, ?_⟩
  unfold LinkedList.write_thank_you_card
  split
  · rename_i hnil
    rw [hnil] at h
    cases h
  · rw [hu]

theorem write_thank_you_card_sorted (l : LinkedList) (guest : Int)
    (hs : l.head.Sorted (fun a b => a ≤ b)) :
    (l.write_thank_you_card guest).head.Sorted (fun a b => a ≤ b) := by
  by_cases hm : guest ∈ l.head
  · obtain ⟨before, after, he, _, hw⟩ := write_thank_you_card_of_mem l guest hm
    rw [hw]
    have hsub : (before ++ after).Sublist l.head := by
      rw [he]
      exact (List.Sublist.refl before).append (List.sublist_cons_self guest after)
    exact List.Pairwise.sublist hsub hs
  · rw [write_thank_you_card_of_not_mem l guest hm]
    exact hs

theorem step_sorted (l : LinkedList) (c : Call) (hs : l.head.Sorted (fun a b => a ≤ b)) :
    (l.step c).head.Sorted (fun a b => a ≤ b) := by
  cases c with
  | add_present tag => exact add_present_chain_sorted tag l.head hs
  | write_thank_you_card guest => exact write_thank_you_card_sorted l guest hs

theorem runFrom_sorted (calls : List Call) :
    ∀ l : LinkedList, l.head.Sorted (fun a b => a ≤ b) →
      (l.runFrom calls).head.Sorted (fun a b => a ≤ b) := by
  induction calls with
  | nil => intro l hs; exact hs
  | cons c cs ih => intro l hs; exact ih (l.step c) (step_sorted l c hs)

/-- The sum of the two counters grows by one with `add_present` and is kept by
`write_thank_you_card`. -/
theorem step_counters_sum (l : LinkedList) (c : Call) :
    (l.step c).presents_count + (l.step c).thank_you_cards_count =
      l.presents_count + l.thank_you_cards_count + (addCount [c] : Nat) := by
  cases c with
  | add_present tag => simp [LinkedList.step, LinkedList.add_present, addCount]; ring
  | write_thank_you_card guest =>
    by_cases hm : guest ∈ l.head
    · obtain ⟨before, after, _, _, hw⟩ := write_thank_you_card_of_mem l guest hm
      simp [LinkedList.step, hw, addCount]
    · simp [LinkedList.step, write_thank_you_card_of_not_mem l guest hm, addCount]

theorem addCount_cons (c : Call) (cs : List Call) :
    addCount (c :: cs) = addCount [c] + addCount cs := by
  cases c <;> simp [addCount, Nat.add_comm]

theorem runFrom_counters_sum (calls : List Call) :
    ∀ l : LinkedList,
      (l.runFrom calls).presents_count + (l.runFrom calls).thank_you_cards_count =
        l.presents_count + l.thank_you_cards_count + (addCount calls : Nat) := by
  induction calls with
  | nil => intro l; simp [LinkedList.runFrom, addCount]
  | cons c cs ih =>
    intro l
    have h1 := ih (l.step c)
    have h2 := step_counters_sum l c
    have h3 := addCount_cons c cs
    simp only [LinkedList.runFrom, List.foldl_cons] at h1 ⊢
    rw [h1, h2, h3]
    push_cast
    ring

/-! ## The registry: counters along a run -/

theorem step_presents_count_eq_length (l : LinkedList) (c : Call)
    (h : l.presents_count = (l.head.length : Int)) :
    (l.step c).presents_count = ((l.step c).head.length : Int) := by
  cases c with
  | add_present tag =>
    simp [LinkedList.step, LinkedList.add_present, add_present_chain_length, h]
  | write_thank_you_card guest =>
    by_cases hm : guest ∈ l.head
    · obtain ⟨before, after, he, _, hw⟩ := write_thank_you_card_of_mem l guest hm
      simp only [LinkedList.step, hw, h, he]
      simp
      ring
    · simp [LinkedList.step, write_thank_you_card_of_not_mem l guest hm, h]

theorem step_thank_you_cards_count_le (l : LinkedList) (c : Call) :
    l.thank_you_cards_count ≤ (l.step c).thank_you_cards_count ∧
      (l.step c).thank_you_cards_count ≤ l.thank_you_cards_count + 1 := by
  cases c with
  | add_present tag => simp [LinkedList.step, LinkedList.add_present]
  | write_thank_you_card guest =>
    by_cases hm : guest ∈ l.head
    · obtain ⟨before, after, _, _, hw⟩ := write_thank_you_card_of_mem l guest hm
      simp [LinkedList.step, hw]
    · simp [LinkedList.step, write_thank_you_card_of_not_mem l guest hm]

theorem runFrom_presents_count_eq_length (calls : List Call) :
    ∀ l : LinkedList, l.presents_count = (l.head.length : Int) →
      (l.runFrom calls).presents_count = ((l.runFrom calls).head.length : Int) := by
  induction calls with
  | nil => intro l h; exact h
  | cons c cs ih => intro l h; exact ih (l.step c) (step_presents_count_eq_length l c h)

theorem runFrom_thank_you_cards_count_nonneg (calls : List Call) :
    ∀ l : LinkedList, 0 ≤ l.thank_you_cards_count →
      0 ≤ (l.runFrom calls).thank_you_cards_count := by
  induction calls with
  | nil => intro l h; exact h
  | cons c cs ih =>
    intro l h
    exact ih (l.step c) (le_trans h (step_thank_you_cards_count_le l c).1)

theorem addCount_le_length (calls : List Call) : addCount calls ≤ calls.length := by
  induction calls with
  | nil => simp [addCount]
  | cons c cs ih => cases c <;> simp [addCount] <;> omega

/-- Along a run from the empty registry both counters stay between `0` and the
number of calls made: no `int` counter overflows in a run of fewer than
`2 ^ 31` calls. -/
theorem run_counters_bounded (calls : List Call) :
    0 ≤ (run calls).presents_count ∧ (run calls).presents_count ≤ (calls.length : Int) ∧
      0 ≤ (run calls).thank_you_cards_count ∧
      (run calls).thank_you_cards_count ≤ (calls.length : Int) := by
  have h1 := runFrom_presents_count_eq_length calls LinkedList.empty (by simp [LinkedList.empty])
  have h2 := runFrom_thank_you_cards_count_nonneg calls LinkedList.empty
    (by simp [LinkedList.empty])
  have h3 := runFrom_counters_sum calls LinkedList.empty
  have h4 : (addCount calls : Int) ≤ (calls.length : Int) := by
    exact_mod_cast addCount_le_length calls
  have h5 : (0 : Int) ≤ ((LinkedList.empty.runFrom calls).head.length : Int) := by positivity
  have e1 : LinkedList.empty.presents_count = 0 := rfl
  have e2 : LinkedList.empty.thank_you_cards_count = 0 := rfl
  rw [e1, e2] at h3
  simp only [run]
  refine ⟨?_, ?_, h2, ?_⟩ <;> omega

/-! ## The registry: `add_present` against the specification's insertion -/

theorem spliceBeforeFirstGreater_of_le (key : Int) (chain : List Int)
    (h : ∀ x ∈ chain, key ≤ x) :
    spliceBeforeFirstGreater key chain = key :: chain := by
  induction chain with
  | nil => rfl
  | cons c rest ih =>
    have hc : key ≤ c := h c (List.mem_cons_self c rest)
    have hr : ∀ x ∈ rest, key ≤ x := fun x hx => h x (List.mem_cons_of_mem c hx)
    by_cases hgt : c > key
    · simp [spliceBeforeFirstGreater, hgt]
    · have hck : c = key := le_antisymm (not_lt.mp hgt) hc
      simp [spliceBeforeFirstGreater, hgt, ih hr, hck]

theorem add_present_scan_eq_splice (key : Int) (chain : List Int)
    (hs : chain.Sorted (fun a b => a ≤ b)) :
    add_present_scan key chain = spliceBeforeFirstGreater key chain := by
  induction chain with
  | nil => rfl
  | cons c rest ih =>
    have hrest : rest.Sorted (fun a b => a ≤ b) := hs.of_cons
    have hall : ∀ x ∈ rest, c ≤ x := fun x hx => List.rel_of_sorted_cons hs x hx
    rcases lt_trichotomy c key with hlt | heq | hgt
    · have hn : ¬ c > key := not_lt.mpr (le_of_lt hlt)
      simp [add_present_scan, spliceBeforeFirstGreater, hlt, hn, ih hrest]
    · subst heq
      simp [add_present_scan, spliceBeforeFirstGreater,
        spliceBeforeFirstGreater_of_le c rest hall]
    · have hn : ¬ c < key := not_lt.mpr (le_of_lt hgt)
      simp [add_present_scan, spliceBeforeFirstGreater, hgt, hn]

theorem add_present_chain_eq_splice (key : Int) (chain : List Int)
    (hs : chain.Sorted (fun a b => a ≤ b)) :
    add_present_chain key chain = spliceBeforeFirstGreater key chain := by
  cases chain with
  | nil => rfl
  | cons h rest =>
    by_cases hh : h > key
    · simp [add_present_chain, spliceBeforeFirstGreater, hh]
    · simp only [add_present_chain, hh, if_false]
      exact add_present_scan_eq_splice key (h :: rest) hs

/-- The new node is linked between two parts of the old chain, which keep
their nodes and their order (on every chain, sorted or not). -/
theorem add_present_chain_splits (key : Int) (chain : List Int) :
    ∃ before after, chain = before ++ after ∧
      add_present_chain key chain = before ++ key :: after := by
  rw [add_present_chain_eq_orderedInsert]
  induction chain with
  | nil => exact ⟨[], [], rfl, rfl⟩
  | cons c rest ih =>
    by_cases hc : key ≤ c
    · exact ⟨[], c :: rest, rfl, by simp [List.orderedInsert, hc]⟩
    · obtain ⟨before, after, he, hi⟩ := ih
      refine ⟨c :: before, after, by simp [he], ?_⟩
      simp only [List.orderedInsert, hc, if_false, hi, List.cons_append]

/-! ## The registry: runs in which no call is repeated -/

theorem run_append_singleton (calls : List Call) (c : Call) :
    run (calls ++ [c]) = (run calls).step c := by
  simp [run, LinkedList.runFrom, List.foldl_append]

theorem mem_add_present_head (l : LinkedList) (tag k : Int) :
    k ∈ (l.add_present tag).head ↔ k = tag ∨ k ∈ l.head := by
  have h := (add_present_chain_perm tag l.head).mem_iff (a := k)
  simpa [LinkedList.add_present] using h

theorem nodup_add_present_head (l : LinkedList) (tag : Int) (hn : l.head.Nodup)
    (ht : tag ∉ l.head) : (l.add_present tag).head.Nodup := by
  have h := (add_present_chain_perm tag l.head).nodup_iff
  exact h.mpr (List.nodup_cons.mpr ⟨ht, hn⟩)

theorem mem_write_thank_you_card_head (l : LinkedList) (guest k : Int) (hn : l.head.Nodup) :
    k ∈ (l.write_thank_you_card guest).head ↔ k ∈ l.head ∧ k ≠ guest := by
  by_cases hm : guest ∈ l.head
  · obtain ⟨before, after, he, hnb, hw⟩ := write_thank_you_card_of_mem l guest hm
    rw [hw, he]
    rw [he] at hn
    have hna : guest ∉ after := by
      have h1 := (List.nodup_append.mp hn).2.1
      exact (List.nodup_cons.mp h1).1
    simp only [List.mem_append, List.mem_cons]
    constructor
    · rintro (hb | ha)
      · exact ⟨Or.inl hb, fun e => hnb (e ▸ hb)⟩
      · exact ⟨Or.inr (Or.inr ha), fun e => hna (e ▸ ha)⟩
    · rintro ⟨hb | he1 | ha, hne⟩
      · exact Or.inl hb
      · exact absurd he1 hne
      · exact Or.inr ha
  · rw [write_thank_you_card_of_not_mem l guest hm]
    constructor
    · intro hk
      exact ⟨hk, fun e => hm (e ▸ hk)⟩
    · intro hk
      exact hk.1

theorem nodup_write_thank_you_card_head (l : LinkedList) (guest : Int) (hn : l.head.Nodup) :
    (l.write_thank_you_card guest).head.Nodup := by
  by_cases hm : guest ∈ l.head
  · obtain ⟨before, after, he, _, hw⟩ := write_thank_you_card_of_mem l guest hm
    rw [hw]
    have hsub : (before ++ after).Sublist l.head := by
      rw [he]
      exact (List.Sublist.refl before).append (List.sublist_cons_self guest after)
    exact hn.sublist hsub
  · rw [write_thank_you_card_of_not_mem l guest hm]
    exact hn

/-- The position of the first occurrence of a call after one more call was
appended to the order of execution. -/
theorem indexOf_append_singleton (calls : List Call) (c x : Call) :
    (calls ++ [c]).indexOf x =
      if x ∈ calls then calls.indexOf x
      else if x = c then calls.length else calls.length + 1 := by
  by_cases hx : x ∈ calls
  · rw [if_pos hx, List.indexOf_append_of_mem hx]
  · rw [if_neg hx, List.indexOf_append_of_not_mem hx]
    by_cases hc : x = c
    · rw [if_pos hc, hc, List.indexOf_cons_self]
      rfl
    · rw [if_neg hc, List.indexOf_cons_ne _ (Ne.symm hc)]
      rfl

/-- The chain after a run in which no call occurs twice: it holds no tag
twice, and it holds the tag `k` exactly when `add_present(k)` ran and no
`write_thank_you_card(k)` ran after it. -/
theorem run_head_of_nodup (calls : List Call) (hn : calls.Nodup) :
    (run calls).head.Nodup ∧
      ∀ k : Int, k ∈ (run calls).head ↔
        (calls.indexOf (Call.add_present k) < calls.length ∧
          ¬ (calls.indexOf (Call.add_present k) <
                calls.indexOf (Call.write_thank_you_card k) ∧
              calls.indexOf (Call.write_thank_you_card k) < calls.length)) := by
  induction calls using List.reverseRecOn with
  | nil => simp [run, LinkedList.runFrom, LinkedList.empty]
  | append_singleton calls c ih =>
    have hn1 : calls.Nodup := (List.nodup_append.mp hn).1
    have hc : c ∉ calls := by
      intro hmem
      exact (List.nodup_append.mp hn).2.2 hmem (List.mem_singleton_self c)
    obtain ⟨ihn, ihm⟩ := ih hn1
    rw [run_append_singleton]
    cases c with
    | add_present t =>
      have ht : t ∉ (run calls).head := by
        intro hmem
        exact hc (List.indexOf_lt_length.mp ((ihm t).mp hmem).1)
      refine ⟨nodup_add_present_head _ t ihn ht, ?_⟩
      intro k
      show k ∈ ((run calls).add_present t).head ↔ _
      rw [mem_add_present_head, ihm k, indexOf_append_singleton, indexOf_append_singleton,
        List.length_append, List.length_singleton]
      have ha := List.indexOf_le_length (a := Call.add_present k) (l := calls)
      have hb := List.indexOf_le_length (a := Call.write_thank_you_card k) (l := calls)
      by_cases hk : k = t
      · subst hk
        simp only [hc, if_false, if_true, reduceCtorEq, true_or, true_iff]
        simp only [← List.indexOf_lt_length] at hc ⊢
        split_ifs <;> omega
      · have hne : Call.add_present k ≠ Call.add_present t := fun e => hk (by cases e; rfl)
        simp only [hne, hk, if_false, reduceCtorEq, false_or]
        simp only [← List.indexOf_lt_length]
        split_ifs <;> omega
    | write_thank_you_card g =>
      refine ⟨nodup_write_thank_you_card_head _ g ihn, ?_⟩
      intro k
      show k ∈ ((run calls).write_thank_you_card g).head ↔ _
      rw [mem_write_thank_you_card_head _ g k ihn, ihm k, indexOf_append_singleton,
        indexOf_append_singleton, List.length_append, List.length_singleton]
      have ha := List.indexOf_le_length (a := Call.add_present k) (l := calls)
      have hb := List.indexOf_le_length (a := Call.write_thank_you_card k) (l := calls)
      by_cases hk : k = g
      · subst hk
        simp only [hc, if_false, if_true, reduceCtorEq, ne_eq, not_true_eq_false, and_false,
          false_iff]
        simp only [← List.indexOf_lt_length] at hc ⊢
        split_ifs <;> omega
      · have hne : Call.write_thank_you_card k ≠ Call.write_thank_you_card g :=
          fun e => hk (by cases e; rfl)
        simp only [hne, hk, if_false, reduceCtorEq, ne_eq, not_false_eq_true, and_true]
        simp only [← List.indexOf_lt_length]
        split_ifs <;> omega

/-! ## The registry: the work lists of `main` -/

theorem addCount_append (xs ys : List Call) :
    addCount (xs ++ ys) = addCount xs + addCount ys := by
  induction xs with
  | nil => simp [addCount]
  | cons c cs ih =>
    rw [List.cons_append, addCount_cons c (cs ++ ys), addCount_cons c cs, ih, Nat.add_assoc]

theorem addCount_perm {xs ys : List Call} (h : xs.Perm ys) : addCount xs = addCount ys := by
  induction h with
  | nil => rfl
  | @cons c l1 l2 _ ih =>
    have h1 := addCount_cons c l1
    have h2 := addCount_cons c l2
    omega
  | swap c d l =>
    have h1 := addCount_cons d (c :: l)
    have h2 := addCount_cons c l
    have h3 := addCount_cons c (d :: l)
    have h4 := addCount_cons d l
    omega
  | trans _ _ ih1 ih2 => exact ih1.trans ih2

theorem addCount_map_add_present (keys : List Int) :
    addCount (keys.map Call.add_present) = keys.length := by
  induction keys with
  | nil => rfl
  | cons k ks ih => simp [addCount, ih]

theorem addCount_map_write_thank_you_card (keys : List Int) :
    addCount (keys.map Call.write_thank_you_card) = 0 := by
  induction keys with
  | nil => rfl
  | cons k ks ih => simp [addCount, ih]

theorem mainKeys_length (n : Nat) : (mainKeys n).length = n := by
  simp [mainKeys]

theorem mainKeys_nodup (n : Nat) : (mainKeys n).Nodup := by
  unfold mainKeys
  refine List.Nodup.map ?_ (List.nodup_range n)
  intro i j hij
  have h : (i : Int) + 1 = (j : Int) + 1 := hij
  omega

theorem workList_nodup (n : Nat) : (presents_queue n ++ cards_queue n).Nodup := by
  refine List.Nodup.append ?_ ?_ ?_
  · exact List.Nodup.map (fun a b h => by cases h; rfl) (mainKeys_nodup n)
  · exact List.Nodup.map (fun a b h => by cases h; rfl) (mainKeys_nodup n)
  · intro c hc1 hc2
    simp only [presents_queue, cards_queue, List.mem_map] at hc1 hc2
    obtain ⟨_, _, e1⟩ := hc1
    obtain ⟨_, _, e2⟩ := hc2
    rw [← e2] at e1
    cases e1

theorem add_present_mem_workList (n : Nat) (k : Int) :
    Call.add_present k ∈ presents_queue n ++ cards_queue n ↔ k ∈ mainKeys n := by
  simp [presents_queue, cards_queue]

theorem write_thank_you_card_mem_workList (n : Nat) (k : Int) :
    Call.write_thank_you_card k ∈ presents_queue n ++ cards_queue n ↔ k ∈ mainKeys n := by
  simp [presents_queue, cards_queue]

/-- After an execution of the two work lists in any order, the chain holds
exactly the keys whose removal ran before their insertion. -/
theorem workList_run_head (n : Nat) (calls : List Call)
    (h : calls.Perm (presents_queue n ++ cards_queue n)) :
    (run calls).head.Perm ((mainKeys n).filter (removalBeforeInsert calls)) := by
  have hnd : calls.Nodup := h.nodup_iff.mpr (workList_nodup n)
  obtain ⟨hhead, hmem⟩ := run_head_of_nodup calls hnd
  refine (List.perm_ext_iff_of_nodup hhead ((mainKeys_nodup n).filter _)).mpr ?_
  intro k
  rw [hmem k, List.mem_filter]
  have ha := List.indexOf_le_length (a := Call.add_present k) (l := calls)
  have hb := List.indexOf_le_length (a := Call.write_thank_you_card k) (l := calls)
  have hma : calls.indexOf (Call.add_present k) < calls.length ↔ k ∈ mainKeys n := by
    rw [List.indexOf_lt_length, h.mem_iff, add_present_mem_workList]
  have hmb : calls.indexOf (Call.write_thank_you_card k) < calls.length ↔ k ∈ mainKeys n := by
    rw [List.indexOf_lt_length, h.mem_iff, write_thank_you_card_mem_workList]
  simp only [removalBeforeInsert, decide_eq_true_eq]
  by_cases hk : k ∈ mainKeys n
  · have h1 := hma.mpr hk
    have h2 := hmb.mpr hk
    have hne : calls.indexOf (Call.add_present k) ≠
        calls.indexOf (Call.write_thank_you_card k) := by
      intro e
      have := (List.indexOf_inj (List.indexOf_lt_length.mp h1)
        (List.indexOf_lt_length.mp h2)).mp e
      cases this
    constructor
    · intro _
      exact ⟨hk, by omega⟩
    · intro _
      exact ⟨h1, by omega⟩
  · have h1 : ¬ calls.indexOf (Call.add_present k) < calls.length := fun x => hk (hma.mp x)
    constructor
    · intro hx
      exact absurd hx.1 h1
    · intro hx
      exact absurd hx.1 hk

/-- For a key of the work lists exactly one of `removalAfterInsert` and
`removalBeforeInsert` holds. -/
theorem removalAfterInsert_eq_not_before (n : Nat) (calls : List Call)
    (h : calls.Perm (presents_queue n ++ cards_queue n)) (k : Int) (hk : k ∈ mainKeys n) :
    removalAfterInsert calls k = true ↔ ¬ removalBeforeInsert calls k = true := by
  have h1 : Call.add_present k ∈ calls :=
    h.mem_iff.mpr ((add_present_mem_workList n k).mpr hk)
  have h2 : Call.write_thank_you_card k ∈ calls :=
    h.mem_iff.mpr ((write_thank_you_card_mem_workList n k).mpr hk)
  have hne : calls.indexOf (Call.add_present k) ≠
      calls.indexOf (Call.write_thank_you_card k) := by
    intro e
    have := (List.indexOf_inj h1 h2).mp e
    cases this
  simp only [removalAfterInsert, removalBeforeInsert, decide_eq_true_eq]
  omega

theorem workList_filter_lengths (n : Nat) (calls : List Call)
    (h : calls.Perm (presents_queue n ++ cards_queue n)) :
    ((mainKeys n).filter (removalAfterInsert calls)).length +
      ((mainKeys n).filter (removalBeforeInsert calls)).length = n := by
  have h1 := List.length_eq_countP_add_countP (p := removalBeforeInsert calls) (mainKeys n)
  have h2 : List.countP (fun a => decide ¬ removalBeforeInsert calls a = true) (mainKeys n) =
      List.countP (removalAfterInsert calls) (mainKeys n) := by
    apply List.countP_congr
    intro k hk
    rw [decide_eq_true_eq]
    exact (removalAfterInsert_eq_not_before n calls h k hk).symm
  rw [mainKeys_length] at h1
  rw [← List.countP_eq_length_filter, ← List.countP_eq_length_filter]
  omega

/-! ## The registry: the claims -/

/-- C1: starting from the empty registry, after every finite sequence of
`add_present` and `write_thank_you_card` calls executed one at a time, with
arbitrary integer keys, the traversal of the list from `head` yields the tags
in non-decreasing order. -/
theorem C1_traversal_sorted (calls : List Call) :
    (run calls).traverse.Sorted (fun a b => a ≤ b) :=
  runFrom_sorted calls LinkedList.empty List.sorted_nil

/-- C2: starting from the empty registry, after every finite sequence of
`add_present` and `write_thank_you_card` calls,
`getPresentsCount() + getThankYouCardsCount()` equals the number of
`add_present` calls made so far. -/
theorem C2_conservation (calls : List Call) :
    (run calls).getPresentsCount + (run calls).getThankYouCardsCount =
      (addCount calls : Int) := by
  have h := runFrom_counters_sum calls LinkedList.empty
  simpa [LinkedList.empty, run, LinkedList.getPresentsCount,
    LinkedList.getThankYouCardsCount] using h

/-- C7: for every registry state and every key that does not occur in the
list, `write_thank_you_card` with that key is a no-op: the traversal,
`getPresentsCount()` and `getThankYouCardsCount()` are unchanged (the call is
a total function of the state: there is no error path, also on the empty
list). -/
theorem C7_absent_key_noop (l : LinkedList) (guest : Int) (h : guest ∉ l.traverse) :
    (l.write_thank_you_card guest).traverse = l.traverse ∧
      (l.write_thank_you_card guest).getPresentsCount = l.getPresentsCount ∧
      (l.write_thank_you_card guest).getThankYouCardsCount = l.getThankYouCardsCount := by
  rw [write_thank_you_card_of_not_mem l guest h]
  exact ⟨rfl, rfl, rfl⟩

/-- C7 at concrete inputs: the key `2` on the chain `1, 3`, and the key `2` on
the empty registry. -/
theorem C7_absent_key_noop_witness :
    ((2 : Int) ∉ (LinkedList.mk [1, 3] 2 5).traverse ∧
      ((LinkedList.mk [1, 3] 2 5).write_thank_you_card 2).traverse = [1, 3] ∧
      ((LinkedList.mk [1, 3] 2 5).write_thank_you_card 2).getPresentsCount = 2 ∧
      ((LinkedList.mk [1, 3] 2 5).write_thank_you_card 2).getThankYouCardsCount = 5) ∧
    ((2 : Int) ∉ LinkedList.empty.traverse ∧
      (LinkedList.empty.write_thank_you_card 2).traverse = [] ∧
      (LinkedList.empty.write_thank_you_card 2).getPresentsCount = 0 ∧
      (LinkedList.empty.write_thank_you_card 2).getThankYouCardsCount = 0) :=
  ⟨⟨by decide, C7_absent_key_noop (LinkedList.mk [1, 3] 2 5) 2 (by decide)⟩,
   ⟨by decide, C7_absent_key_noop LinkedList.empty 2 (by decide)⟩⟩

/-- C8: for every registry state and every key that occurs in the list,
`write_thank_you_card` with that key unlinks exactly the first node from
`head` whose tag equals the key (the nodes `before` it do not carry the key),
leaves every other node in place and in the same order, decreases
`getPresentsCount()` by one and increases `getThankYouCardsCount()` by one. -/
theorem C8_present_key_unlinks_first (l : LinkedList) (guest : Int) (h : guest ∈ l.traverse) :
    ∃ before after, l.traverse = before ++ guest :: after ∧ guest ∉ before ∧
      (l.write_thank_you_card guest).traverse = before ++ after ∧
      (l.write_thank_you_card guest).getPresentsCount = l.getPresentsCount - 1 ∧
      (l.write_thank_you_card guest).getThankYouCardsCount = l.getThankYouCardsCount + 1 := by
  obtain ⟨before, after, he, hnb, hw⟩ := write_thank_you_card_of_mem l guest h
  refine ⟨before, after, he, hnb, ?_⟩
  rw [hw]
  exact ⟨rfl, rfl, rfl⟩

/-- C8 at a concrete input: the key `2` on the chain `1, 2, 2, 3`. -/
theorem C8_present_key_unlinks_first_witness :
    (2 : Int) ∈ (LinkedList.mk [1, 2, 2, 3] 4 0).traverse ∧
    ((LinkedList.mk [1, 2, 2, 3] 4 0).write_thank_you_card 2 = LinkedList.mk [1, 2, 3] 3 1) ∧
    ∃ before after, (LinkedList.mk [1, 2, 2, 3] 4 0).traverse = before ++ 2 :: after ∧
      (2 : Int) ∉ before ∧
      ((LinkedList.mk [1, 2, 2, 3] 4 0).write_thank_you_card 2).traverse = before ++ after ∧
      ((LinkedList.mk [1, 2, 2, 3] 4 0).write_thank_you_card 2).getPresentsCount =
        (LinkedList.mk [1, 2, 2, 3] 4 0).getPresentsCount - 1 ∧
      ((LinkedList.mk [1, 2, 2, 3] 4 0).write_thank_you_card 2).getThankYouCardsCount =
        (LinkedList.mk [1, 2, 2, 3] 4 0).getThankYouCardsCount + 1 :=
  ⟨by decide, by decide,
    C8_present_key_unlinks_first (LinkedList.mk [1, 2, 2, 3] 4 0) 2 (by decide)⟩

/-- C9, as stated, fails: on the registry reached by `add_present(1)`, the call
`write_thank_you_card(1)` takes `getPresentsCount()` from `1` down to `0`. -/
theorem C9_presents_count_decreases :
    (run [Call.add_present 1]).getPresentsCount = 1 ∧
    ((run [Call.add_present 1]).step (Call.write_thank_you_card 1)).getPresentsCount = 0 ∧
    ((run [Call.add_present 1]).step (Call.write_thank_you_card 1)).getPresentsCount <
      (run [Call.add_present 1]).getPresentsCount := by
  decide

/-- C9, amended: `getThankYouCardsCount()` is monotone, no single operation
makes it smaller; `getPresentsCount()` grows by one with `add_present`, is
unchanged by a `write_thank_you_card` whose key is absent, and drops by exactly
one with a `write_thank_you_card` whose key occurs in the list. -/
theorem C9_counters_per_call (l : LinkedList) (c : Call) :
    l.getThankYouCardsCount ≤ (l.step c).getThankYouCardsCount ∧
    (∀ tag, c = Call.add_present tag →
      (l.step c).getPresentsCount = l.getPresentsCount + 1) ∧
    (∀ guest, c = Call.write_thank_you_card guest → guest ∉ l.traverse →
      (l.step c).getPresentsCount = l.getPresentsCount) ∧
    (∀ guest, c = Call.write_thank_you_card guest → guest ∈ l.traverse →
      (l.step c).getPresentsCount = l.getPresentsCount - 1) := by
  refine ⟨(step_thank_you_cards_count_le l c).1, ?_, ?_, ?_⟩
  · intro tag hc
    subst hc
    rfl
  · intro guest hc hm
    subst hc
    simp only [LinkedList.step]
    rw [write_thank_you_card_of_not_mem l guest hm]
  · intro guest hc hm
    subst hc
    obtain ⟨before, after, _, _, hw⟩ := write_thank_you_card_of_mem l guest hm
    simp only [LinkedList.step]
    rw [hw]
    rfl

/-- C10, as stated, fails: `write_thank_you_card` is a `void` method.  On the
chain `1` the call hands back the same value for the key `1`, which occurs in
the list, and for the key `2`, which does not. -/
theorem C10_void_result_same :
    ((LinkedList.mk [1] 1 0).write_thank_you_card_call 1).1 =
      ((LinkedList.mk [1] 1 0).write_thank_you_card_call 2).1 ∧
    (1 : Int) ∈ (LinkedList.mk [1] 1 0).traverse ∧
    (2 : Int) ∉ (LinkedList.mk [1] 1 0).traverse := by
  decide

/-- C10, amended: `write_thank_you_card` returns nothing; whether an item was
found shows in the counters: `getThankYouCardsCount()` is one larger after the
call (and `getPresentsCount()` one smaller) if and only if the key occurred in
the list before the call, and both are unchanged if and only if it did not. -/
theorem C10_found_iff_counters_move (l : LinkedList) (guest : Int) :
    (((l.write_thank_you_card_call guest).2.getThankYouCardsCount =
          l.getThankYouCardsCount + 1 ∧
        (l.write_thank_you_card_call guest).2.getPresentsCount = l.getPresentsCount - 1) ↔
      guest ∈ l.traverse) ∧
    (((l.write_thank_you_card_call guest).2.getThankYouCardsCount =
          l.getThankYouCardsCount ∧
        (l.write_thank_you_card_call guest).2.getPresentsCount = l.getPresentsCount) ↔
      guest ∉ l.traverse) := by
  by_cases hm : guest ∈ l.traverse
  · obtain ⟨before, after, _, _, hw⟩ := write_thank_you_card_of_mem l guest hm
    simp [LinkedList.write_thank_you_card_call, hw, hm, LinkedList.getThankYouCardsCount,
      LinkedList.getPresentsCount]
  · have hw := write_thank_you_card_of_not_mem l guest hm
    simp [LinkedList.write_thank_you_card_call, hw, hm, LinkedList.getThankYouCardsCount,
      LinkedList.getPresentsCount]

/-- C12: for every registry whose traversal is sorted non-decreasing and every
integer key, the key sequence after `add_present(key)` is the one obtained by
finding the first item with a key greater than `key` and splicing `key`
immediately before it (at the end when no item is greater); the list grows by
exactly one node, and the old chain is still there around the new node, no
key lost or reordered. -/
theorem C12_add_present_refines_splice (l : LinkedList) (key : Int)
    (hs : l.traverse.Sorted (fun a b => a ≤ b)) :
    (l.add_present key).traverse = spliceBeforeFirstGreater key l.traverse ∧
    (l.add_present key).traverse.length = l.traverse.length + 1 ∧
    ∃ before after, l.traverse = before ++ after ∧
      (l.add_present key).traverse = before ++ key :: after :=
  ⟨add_present_chain_eq_splice key l.head hs, add_present_chain_length key l.head,
    add_present_chain_splits key l.head⟩

/-- C12 at a concrete input: the key `2` on the sorted chain `1, 2, 2, 3`. -/
theorem C12_add_present_refines_splice_witness :
    (LinkedList.mk [1, 2, 2, 3] 4 0).traverse.Sorted (fun a b => a ≤ b) ∧
    ((LinkedList.mk [1, 2, 2, 3] 4 0).add_present 2).traverse = [1, 2, 2, 2, 3] ∧
    spliceBeforeFirstGreater 2 [1, 2, 2, 3] = [1, 2, 2, 2, 3] ∧
    ((LinkedList.mk [1, 2, 2, 3] 4 0).add_present 2).traverse =
      spliceBeforeFirstGreater 2 (LinkedList.mk [1, 2, 2, 3] 4 0).traverse ∧
    ((LinkedList.mk [1, 2, 2, 3] 4 0).add_present 2).traverse.length =
      (LinkedList.mk [1, 2, 2, 3] 4 0).traverse.length + 1 :=
  ⟨by decide, by decide, by decide,
    (C12_add_present_refines_splice (LinkedList.mk [1, 2, 2, 3] 4 0) 2 (by decide)).1,
    (C12_add_present_refines_splice (LinkedList.mk [1, 2, 2, 3] 4 0) 2 (by decide)).2.1⟩

/-- C14: starting from the empty registry, after every finite sequence of
`add_present` and `write_thank_you_card` calls, `getPresentsCount()` equals
the number of nodes reachable from `head`, so it is never negative, and
`getThankYouCardsCount()` is never negative. -/
theorem C14_presents_count_is_length (calls : List Call) :
    (run calls).getPresentsCount = ((run calls).traverse.length : Int) ∧
    0 ≤ (run calls).getPresentsCount ∧
    0 ≤ (run calls).getThankYouCardsCount := by
  have h1 := runFrom_presents_count_eq_length calls LinkedList.empty (by simp [LinkedList.empty])
  have h2 := runFrom_thank_you_cards_count_nonneg calls LinkedList.empty
    (by simp [LinkedList.empty])
  have h3 : (0 : Int) ≤ ((LinkedList.empty.runFrom calls).head.length : Int) := by positivity
  refine ⟨h1, ?_, h2⟩
  show 0 ≤ (LinkedList.empty.runFrom calls).presents_count
  rw [h1]
  exact h3

/-- C15: for every `n` and every order of execution `calls` in which each
key `1..n` is passed to `add_present` exactly once and to
`write_thank_you_card` exactly once (a permutation of the two work lists built
in `main`), the final `getThankYouCardsCount()` is the number of keys whose
removal ran after their insertion, the final `getPresentsCount()` is the
number of keys whose removal ran before their insertion, and the final list is
empty exactly when every removal followed its own insert. -/
theorem C15_final_counts (n : Nat) (calls : List Call)
    (h : calls.Perm (presents_queue n ++ cards_queue n)) :
    (run calls).getThankYouCardsCount =
      (((mainKeys n).filter (removalAfterInsert calls)).length : Int) ∧
    (run calls).getPresentsCount =
      (((mainKeys n).filter (removalBeforeInsert calls)).length : Int) ∧
    ((run calls).traverse = [] ↔ ∀ k ∈ mainKeys n, removalAfterInsert calls k = true) := by
  have hperm := workList_run_head n calls h
  have hpc := runFrom_presents_count_eq_length calls LinkedList.empty
    (by simp [LinkedList.empty])
  have hsum := runFrom_counters_sum calls LinkedList.empty
  have e1 : LinkedList.empty.presents_count = 0 := rfl
  have e2 : LinkedList.empty.thank_you_cards_count = 0 := rfl
  have hadd : addCount calls = n := by
    rw [addCount_perm h, addCount_append, presents_queue, cards_queue,
      addCount_map_add_present, addCount_map_write_thank_you_card, mainKeys_length,
      Nat.add_zero]
  have hlen := workList_filter_lengths n calls h
  have hhead := hperm.length_eq
  rw [e1, e2, hadd] at hsum
  refine ⟨?_, ?_, ?_⟩
  · show (LinkedList.empty.runFrom calls).thank_you_cards_count = _
    have hrun : (run calls).head = (LinkedList.empty.runFrom calls).head := rfl
    rw [hrun] at hhead
    omega
  · show (LinkedList.empty.runFrom calls).presents_count = _
    have hrun : (run calls).head = (LinkedList.empty.runFrom calls).head := rfl
    rw [hrun] at hhead
    omega
  · show (run calls).head = [] ↔ _
    constructor
    · intro hnil k hk
      rw [hnil] at hperm
      have hfil := hperm.symm.eq_nil
      rw [removalAfterInsert_eq_not_before n calls h k hk]
      exact List.filter_eq_nil_iff.mp hfil k hk
    · intro hall
      have hfil : (mainKeys n).filter (removalBeforeInsert calls) = [] := by
        rw [List.filter_eq_nil_iff]
        intro k hk
        exact (removalAfterInsert_eq_not_before n calls h k hk).mp (hall k hk)
      rw [hfil] at hperm
      exact hperm.eq_nil

/-- C15 at a concrete order of execution for `n = 2`: the card for `1` is
written before the present `1` is added, the card for `2` after the present
`2`; one card is counted and the present `1` is left in the list. -/
theorem C15_final_counts_witness :
    [Call.write_thank_you_card 1, Call.add_present 1, Call.add_present 2,
        Call.write_thank_you_card 2].Perm (presents_queue 2 ++ cards_queue 2) ∧
    (run [Call.write_thank_you_card 1, Call.add_present 1, Call.add_present 2,
        Call.write_thank_you_card 2]) = LinkedList.mk [1] 1 1 ∧
    (run [Call.write_thank_you_card 1, Call.add_present 1, Call.add_present 2,
        Call.write_thank_you_card 2]).getThankYouCardsCount =
      (((mainKeys 2).filter (removalAfterInsert [Call.write_thank_you_card 1,
        Call.add_present 1, Call.add_present 2, Call.write_thank_you_card 2])).length : Int) ∧
    (run [Call.write_thank_you_card 1, Call.add_present 1, Call.add_present 2,
        Call.write_thank_you_card 2]).getPresentsCount =
      (((mainKeys 2).filter (removalBeforeInsert [Call.write_thank_you_card 1,
        Call.add_present 1, Call.add_present 2, Call.write_thank_you_card 2])).length : Int) :=
  ⟨by decide, by decide,
    (C15_final_counts 2 [Call.write_thank_you_card 1, Call.add_present 1, Call.add_present 2,
      Call.write_thank_you_card 2] (by decide)).1,
    (C15_final_counts 2 [Call.write_thank_you_card 1, Call.add_present 1, Call.add_present 2,
      Call.write_thank_you_card 2] (by decide)).2.1⟩

end BirthdayPresents

namespace AtmosphericTemperature

/-! ## The reading queue -/

theorem foldl_addReading_readings {α : Type} (added : List (TemperatureReading α)) :
    ∀ q : ReadingQueue α,
      (added.foldl ReadingQueue.addReading q).readings = q.readings ++ added := by
  induction added with
  | nil => intro q; simp
  | cons r rs ih => intro q; simp [ih, ReadingQueue.addReading]

/-- Calls of `addReading` executed one after the other lose nothing: the
queue grows by one reading for each call. -/
theorem foldl_addReading_length {α : Type} (added : List (TemperatureReading α))
    (q : ReadingQueue α) :
    (added.foldl ReadingQueue.addReading q).readings.length =
      q.readings.length + added.length := by
  rw [foldl_addReading_readings, List.length_append]

theorem drainLoop_eq {α : Type} (ticksPerHour hour : Int) (readings : List (TemperatureReading α)) :
    ∀ hourReadings : List (TemperatureReading α),
      drainLoop ticksPerHour hour readings hourReadings =
        ([], hourReadings ++
          readings.filter (fun r => decide (hourOf ticksPerHour r.timestamp = hour))) := by
  induction readings with
  | nil => intro acc; simp [drainLoop]
  | cons front rest ih =>
    intro acc
    by_cases hf : hourOf ticksPerHour front.timestamp = hour
    · simp [drainLoop, ih, hf]
    · simp [drainLoop, ih, hf]

theorem restoreLoop_eq {α : Type} (tempQueue : List (TemperatureReading α)) :
    ∀ readings : List (TemperatureReading α),
      restoreLoop tempQueue readings = ([], readings ++ tempQueue) := by
  induction tempQueue with
  | nil => intro rd; simp [restoreLoop]
  | cons front rest ih => intro rd; simp [restoreLoop, ih]

/-- What `getReadingsForHour` does: it returns the readings of the requested
hour in queue order, and leaves the queue empty. -/
theorem getReadingsForHour_eq {α : Type} (ticksPerHour : Int) (q : ReadingQueue α) (hour : Int) :
    q.getReadingsForHour ticksPerHour hour =
      ({ readings := [] },
        q.readings.filter (fun r => decide (hourOf ticksPerHour r.timestamp = hour))) := by
  simp [ReadingQueue.getReadingsForHour, drainLoop_eq, restoreLoop_eq]

/-- C3, the code at a failing input (one tick a second, 3600 ticks an hour):
the queue holds a reading of hour 1 and a reading of hour 2; after
`getReadingsForHour(1)` the queue is empty, although the reading of hour 2
does not match and is not in the returned vector either. -/
theorem C3_nonmatching_reading_dropped :
    hourOf 3600 3605 = 1 ∧ hourOf 3600 7200 = 2 ∧
    (((ReadingQueue.empty.addReading ⟨(20 : Int), 3605⟩).addReading
        ⟨21, 7200⟩).getReadingsForHour 3600 1).1.readings = [] ∧
    (((ReadingQueue.empty.addReading ⟨(20 : Int), 3605⟩).addReading
        ⟨21, 7200⟩).getReadingsForHour 3600 1).2 = [⟨20, 3605⟩] ∧
    ((ReadingQueue.empty.addReading ⟨(20 : Int), 3605⟩).addReading
        ⟨21, 7200⟩).readings.filter (fun r => decide (hourOf 3600 r.timestamp ≠ 1)) =
      [⟨21, 7200⟩] := by
  decide

/-- C4: for every sequence of readings added with `addReading` to a fresh
queue and every hour bucket, the vector returned by `getReadingsForHour(hour)`
is the sequence of added readings filtered by `bucket == hour`: every reading
of that hour once, no other reading, in the order they were added; it is
empty when no reading is of that hour. -/
theorem C4_returned_readings {α : Type} (ticksPerHour : Int)
    (added : List (TemperatureReading α)) (hour : Int) :
    ((added.foldl ReadingQueue.addReading ReadingQueue.empty).getReadingsForHour
        ticksPerHour hour).2 =
      added.filter (fun r => decide (hourOf ticksPerHour r.timestamp = hour)) ∧
    ((∀ r ∈ added, hourOf ticksPerHour r.timestamp ≠ hour) →
      ((added.foldl ReadingQueue.addReading ReadingQueue.empty).getReadingsForHour
        ticksPerHour hour).2 = []) := by
  have hq := foldl_addReading_readings added (ReadingQueue.empty : ReadingQueue α)
  have he : (ReadingQueue.empty : ReadingQueue α).readings = [] := rfl
  rw [he, List.nil_append] at hq
  rw [getReadingsForHour_eq, hq]
  refine ⟨rfl, ?_⟩
  intro hno
  simp only [List.filter_eq_nil_iff, decide_eq_true_eq]
  exact hno

/-! ## The hourly report -/

theorem sortByTemperature_sorted {α : Type} [LinearOrder α]
    (hourReadings : List (TemperatureReading α)) :
    (sortByTemperature hourReadings).Sorted (fun a b => a.temperature ≤ b.temperature) := by
  haveI : IsTotal (TemperatureReading α) (fun a b => a.temperature ≤ b.temperature) :=
    ⟨fun a b => le_total a.temperature b.temperature⟩
  haveI : IsTrans (TemperatureReading α) (fun a b => a.temperature ≤ b.temperature) :=
    ⟨fun _ _ _ hab hbc => le_trans hab hbc⟩
  exact List.sorted_insertionSort _ hourReadings

theorem sortByTemperature_perm {α : Type} [LinearOrder α]
    (hourReadings : List (TemperatureReading α)) :
    (sortByTemperature hourReadings).Perm hourReadings :=
  List.perm_insertionSort _ hourReadings

/-- What lines 94-95 select: `top5Highest` is the front of the ascending
vector (its smallest values) and `top5Lowest` its back (its largest values). -/
theorem top5_selection {α : Type} (hourReadings : List (TemperatureReading α)) :
    top5Highest hourReadings = hourReadings.take 5 ∧
      top5Lowest hourReadings = hourReadings.drop (hourReadings.length - 5) := by
  constructor
  · unfold top5Highest
    rcases le_total 5 hourReadings.length with h | h
    · rw [min_eq_left h]
    · rw [min_eq_right h, List.take_of_length_le h, List.take_of_length_le (le_refl _)]
  · unfold top5Lowest
    rcases le_total 5 hourReadings.length with h | h
    · rw [min_eq_left h]
    · rw [min_eq_right h, Nat.sub_self, Nat.sub_eq_zero_of_le h]

/-- C5, the code at a failing input: for the drained values `5, 1, 9, 1, 9, 3`
the sorted vector is `1, 1, 3, 5, 9, 9`, and the code puts the five largest
values into `top5Lowest` and the five smallest into `top5Highest`. -/
theorem C5_selection_names_swapped :
    (sortByTemperature exampleDrained).map (fun r => r.temperature) = [1, 1, 3, 5, 9, 9] ∧
    (top5Lowest (sortByTemperature exampleDrained)).map (fun r => r.temperature) =
      [1, 3, 5, 9, 9] ∧
    (top5Highest (sortByTemperature exampleDrained)).map (fun r => r.temperature) =
      [1, 1, 3, 5, 9] := by
  decide

theorem sizeMinusOne_eq (size : Nat) (h1 : 1 ≤ size) (h2 : size < 2 ^ 64) :
    sizeMinusOne size = size - 1 := by
  unfold sizeMinusOne
  have e : size + 2 ^ 64 - 1 = (size - 1) + 2 ^ 64 := by omega
  rw [e, Nat.add_mod_right, Nat.mod_eq_of_lt (by omega)]

theorem recordedAt_of_lt {α : Type} [LinearOrder α] (arith : DoubleArith α)
    (hourReadings : List (TemperatureReading α)) (i : Nat) (hi : i + 1 < hourReadings.length) :
    recordedAt arith hourReadings i =
      { maxDifference :=
          arith.abs (arith.sub hourReadings[i + 1].temperature hourReadings[i].temperature)
        startTime := hourReadings[i].timestamp
        endTime := hourReadings[i + 1].timestamp } := by
  have h1 : hourReadings[i + 1]? = some hourReadings[i + 1] := List.getElem?_eq_getElem hi
  have h2 : hourReadings[i]? = some hourReadings[i] := List.getElem?_eq_getElem (by omega)
  simp only [recordedAt, h1, h2]

theorem scanBody_of_lt {α : Type} [LinearOrder α] (arith : DoubleArith α)
    (hourReadings : List (TemperatureReading α)) (i : Nat) (s : Scan α)
    (hi : i + 1 < hourReadings.length) :
    scanBody arith hourReadings i s =
      some (if (recordedAt arith hourReadings i).maxDifference > s.maxDifference
        then recordedAt arith hourReadings i else s) := by
  have h1 : hourReadings[i + 1]? = some hourReadings[i + 1] := List.getElem?_eq_getElem hi
  have h2 : hourReadings[i]? = some hourReadings[i] := List.getElem?_eq_getElem (by omega)
  simp only [scanBody, recordedAt, h1, h2]
  split <;> rfl

/-- The invariant of the scan loop.  Started at index `i` with every pair
before `i` at most `s.maxDifference`, the loop ends in a state that bounds
every pair; that state is either the one it started from, or the record of a
pair `k ≥ i` that exceeds the start value and every pair before `k`. -/
theorem scanLoop_spec {α : Type} [LinearOrder α] (arith : DoubleArith α)
    (hourReadings : List (TemperatureReading α)) :
    ∀ (remaining i : Nat) (s : Scan α), i + remaining + 1 = hourReadings.length →
      (∀ j, j < i → (recordedAt arith hourReadings j).maxDifference ≤ s.maxDifference) →
      ∃ s1, scanLoop arith hourReadings remaining i s = some s1 ∧
        (∀ j, j < i + remaining → (recordedAt arith hourReadings j).maxDifference ≤ s1.maxDifference) ∧
        (s1 = s ∨ ∃ k, i ≤ k ∧ k < i + remaining ∧ s1 = recordedAt arith hourReadings k ∧
          s.maxDifference < (recordedAt arith hourReadings k).maxDifference ∧
          ∀ j, j < k → (recordedAt arith hourReadings j).maxDifference <
            (recordedAt arith hourReadings k).maxDifference) := by
  intro remaining
  induction remaining with
  | zero =>
    intro i s _ hle
    exact ⟨s, rfl, by simpa using hle, Or.inl rfl⟩
  | succ n ih =>
    intro i s hlen hle
    have hi : i + 1 < hourReadings.length := by omega
    simp only [scanLoop, scanBody_of_lt arith hourReadings i s hi]
    by_cases hgt : (recordedAt arith hourReadings i).maxDifference > s.maxDifference
    · simp only [hgt, if_true]
      have hle1 : ∀ j, j < i + 1 →
          (recordedAt arith hourReadings j).maxDifference ≤
            (recordedAt arith hourReadings i).maxDifference := by
        intro j hj
        rcases Nat.lt_succ_iff_lt_or_eq.mp hj with hlt | heq
        · exact le_trans (hle j hlt) (le_of_lt hgt)
        · rw [heq]
      obtain ⟨s1, hrun, hall, hcase⟩ :=
        ih (i + 1) (recordedAt arith hourReadings i) (by omega) hle1
      refine ⟨s1, hrun, ?_, ?_⟩
      · intro j hj
        exact hall j (by omega)
      · right
        rcases hcase with heq | ⟨k, hk1, hk2, hk3, hk4, hk5⟩
        · refine ⟨i, le_refl i, by omega, heq, hgt, ?_⟩
          intro j hj
          exact lt_of_le_of_lt (hle j hj) hgt
        · exact ⟨k, by omega, by omega, hk3, lt_trans hgt hk4, hk5⟩
    · simp only [hgt, if_false]
      have hle1 : ∀ j, j < i + 1 →
          (recordedAt arith hourReadings j).maxDifference ≤ s.maxDifference := by
        intro j hj
        rcases Nat.lt_succ_iff_lt_or_eq.mp hj with hlt | heq
        · exact hle j hlt
        · rw [heq]
          exact not_lt.mp hgt
      obtain ⟨s1, hrun, hall, hcase⟩ := ih (i + 1) s (by omega) hle1
      refine ⟨s1, hrun, ?_, ?_⟩
      · intro j hj
        exact hall j (by omega)
      · rcases hcase with heq | ⟨k, hk1, hk2, hk3, hk4, hk5⟩
        · exact Or.inl heq
        · exact Or.inr ⟨k, by omega, by omega, hk3, hk4, hk5⟩

/-- On a vector that is not empty (and whose size fits `size_t`) the scan
reads inside the vector only: it runs to its end and returns. -/
theorem maxDifferenceScan_of_nonempty {α : Type} [LinearOrder α] (arith : DoubleArith α)
    (hourReadings : List (TemperatureReading α)) (h1 : 1 ≤ hourReadings.length)
    (h2 : hourReadings.length < 2 ^ 64) :
    ∃ s, maxDifferenceScan arith hourReadings = some s := by
  obtain ⟨s1, hrun, _, _⟩ :=
    scanLoop_spec arith hourReadings (hourReadings.length - 1) 0
      { maxDifference := arith.zero, startTime := 0, endTime := 0 } (by omega)
      (fun j hj => absurd hj (Nat.not_lt_zero j))
  refine ⟨s1, ?_⟩
  unfold maxDifferenceScan
  rw [sizeMinusOne_eq _ h1 h2, hrun]

/-- C6, as stated, fails, because the differences are computed in `double`
arithmetic.  On the sorted `double`s `-1`, `-2 ^ (-60)`, `1` the absolute
differences of the adjacent values are `1 - 2 ^ (-60)` and `1 + 2 ^ (-60)`:
the maximum is `1 + 2 ^ (-60)` and only the pair `(1, 2)` attains it.  Both
computed differences round to `1.0`, so the scan ends with
`maxDifference = 1.0` and the timestamps of the pair `(0, 1)`. -/
theorem C6_rounding_hides_maximum :
    (exampleRounding.map (fun r => r.temperature)).Sorted (fun a b => a ≤ b) ∧
    exampleRounding.map (fun r => r.temperature) =
      [-double 1, -(pow2 1014 : Int), double 1] ∧
    |(-(pow2 1014 : Int)) - (-double 1)| = double 1 - (pow2 1014 : Int) ∧
    |double 1 - (-(pow2 1014 : Int))| = double 1 + (pow2 1014 : Int) ∧
    |(-(pow2 1014 : Int)) - (-double 1)| < |double 1 - (-(pow2 1014 : Int))| ∧
    binary64.abs (binary64.sub (-(pow2 1014 : Int)) (-double 1)) = double 1 ∧
    binary64.abs (binary64.sub (double 1) (-(pow2 1014 : Int))) = double 1 ∧
    maxDifferenceScan binary64 exampleRounding =
      some { maxDifference := double 1, startTime := 0, endTime := 1 } := by
  decide

/-- C6, amended: for every vector of readings (of a size that fits `size_t`)
in which some adjacent pair has a computed difference above `0.0`, so of at
least two readings, the scan returns, and ends with `maxDifference` the
difference `abs(hourReadings[i + 1].temperature - hourReadings[i].temperature)`
as computed in `double` arithmetic of an adjacent pair `i, i + 1` whose
computed difference is at least that of every adjacent pair and strictly
larger than that of every pair to its left, with `startTime` and `endTime` the
timestamps of that pair.  This holds in every arithmetic `arith` and needs no
sortedness, so it holds of every value-sorted vector.  For the sorted values
`1, 1, 3, 5, 9, 9` (stamped `0 .. 5`) in IEEE 754 arithmetic the maximum is
`4` and the recorded timestamps `3` and `4` are those of the readings `5` and
`9`. -/
theorem C6_scan_records_first_computed_maximum {α : Type} [LinearOrder α]
    (arith : DoubleArith α)
    (hourReadings : List (TemperatureReading α)) (hsize : hourReadings.length < 2 ^ 64)
    (hdiff : ∃ j, ∃ hj : j + 1 < hourReadings.length,
      arith.zero <
        arith.abs (arith.sub hourReadings[j + 1].temperature hourReadings[j].temperature)) :
    (∃ i, ∃ hi : i + 1 < hourReadings.length,
      maxDifferenceScan arith hourReadings =
        some { maxDifference :=
                 arith.abs
                   (arith.sub hourReadings[i + 1].temperature hourReadings[i].temperature)
               startTime := hourReadings[i].timestamp
               endTime := hourReadings[i + 1].timestamp } ∧
      (∀ j, ∀ hj : j + 1 < hourReadings.length,
        arith.abs (arith.sub hourReadings[j + 1].temperature hourReadings[j].temperature) ≤
          arith.abs (arith.sub hourReadings[i + 1].temperature hourReadings[i].temperature)) ∧
      (∀ j, ∀ hj : j < i,
        arith.abs (arith.sub hourReadings[j + 1].temperature hourReadings[j].temperature) <
          arith.abs
            (arith.sub hourReadings[i + 1].temperature hourReadings[i].temperature))) ∧
    maxDifferenceScan binary64 exampleSorted =
      some { maxDifference := double 4, startTime := 3, endTime := 4 } ∧
    exampleSorted[3]? = some { temperature := double 5, timestamp := 3 } ∧
    exampleSorted[4]? = some { temperature := double 9, timestamp := 4 } := by
  refine ⟨?_, by decide, by decide, by decide⟩
  obtain ⟨j0, hj0, hpos0⟩ := hdiff
  have hlen : 2 ≤ hourReadings.length := by omega
  have hbound : sizeMinusOne hourReadings.length = hourReadings.length - 1 :=
    sizeMinusOne_eq _ (by omega) hsize
  obtain ⟨s1, hrun, hall, hcase⟩ :=
    scanLoop_spec arith hourReadings (hourReadings.length - 1) 0
      { maxDifference := arith.zero, startTime := 0, endTime := 0 } (by omega)
      (fun j hj => absurd hj (Nat.not_lt_zero j))
  have hpos : arith.zero < (recordedAt arith hourReadings j0).maxDifference := by
    rw [recordedAt_of_lt arith hourReadings j0 hj0]
    exact hpos0
  rcases hcase with heq | ⟨k, _, hk2, hk3, _, hk5⟩
  · have h0 := hall j0 (by omega)
    rw [heq] at h0
    exact absurd hpos (not_lt.mpr h0)
  · have hk : k + 1 < hourReadings.length := by omega
    refine ⟨k, hk, ?_, ?_, ?_⟩
    · unfold maxDifferenceScan
      rw [hbound, hrun, hk3, recordedAt_of_lt arith hourReadings k hk]
    · intro j hj
      have h1 := hall j (by omega)
      rw [hk3, recordedAt_of_lt arith hourReadings k hk,
        recordedAt_of_lt arith hourReadings j hj] at h1
      exact h1
    · intro j hj
      have h1 := hk5 j hj
      rw [recordedAt_of_lt arith hourReadings k hk,
        recordedAt_of_lt arith hourReadings j (by omega)] at h1
      exact h1

/-- C6, amended, at the specification's example, the sorted values
`1, 1, 3, 5, 9, 9` in IEEE 754 arithmetic: the hypotheses hold there, and so
does the conclusion. -/
theorem C6_scan_records_first_computed_maximum_witness :
    exampleSorted.length < 2 ^ 64 ∧
    (∃ j, ∃ hj : j + 1 < exampleSorted.length,
      binary64.zero <
        binary64.abs (binary64.sub exampleSorted[j + 1].temperature
          exampleSorted[j].temperature)) ∧
    (∃ i, ∃ hi : i + 1 < exampleSorted.length,
      maxDifferenceScan binary64 exampleSorted =
        some { maxDifference :=
                 binary64.abs (binary64.sub exampleSorted[i + 1].temperature
                   exampleSorted[i].temperature)
               startTime := exampleSorted[i].timestamp
               endTime := exampleSorted[i + 1].timestamp } ∧
      (∀ j, ∀ hj : j + 1 < exampleSorted.length,
        binary64.abs (binary64.sub exampleSorted[j + 1].temperature
            exampleSorted[j].temperature) ≤
          binary64.abs (binary64.sub exampleSorted[i + 1].temperature
            exampleSorted[i].temperature)) ∧
      (∀ j, ∀ hj : j < i,
        binary64.abs (binary64.sub exampleSorted[j + 1].temperature
            exampleSorted[j].temperature) <
          binary64.abs (binary64.sub exampleSorted[i + 1].temperature
            exampleSorted[i].temperature))) :=
  ⟨by decide, ⟨1, by decide, by decide⟩,
    (C6_scan_records_first_computed_maximum binary64 exampleSorted (by decide)
      ⟨1, by decide, by decide⟩).1⟩

/-- C13, the code at the failing input, the empty vector: the loop bound
`hourReadings.size() - 1` wraps to `2 ^ 64 - 1`, so the loop is entered at
`i = 0`, where neither `hourReadings[1]` nor `hourReadings[0]` exists: the
first iteration reads outside the vector and the scan has no defined
result. -/
theorem C13_empty_vector_read_out_of_bounds :
    sizeMinusOne ([] : List (TemperatureReading Int)).length = 2 ^ 64 - 1 ∧
    0 < sizeMinusOne ([] : List (TemperatureReading Int)).length ∧
    ([] : List (TemperatureReading Int))[0 + 1]? = none ∧
    ([] : List (TemperatureReading Int))[0]? = none ∧
    scanBody binary64 ([] : List (TemperatureReading Int)) 0
      { maxDifference := 0, startTime := 0, endTime := 0 } = none ∧
    maxDifferenceScan binary64 ([] : List (TemperatureReading Int)) = none := by
  decide

end AtmosphericTemperature
